import Mathlib

/-!
# Hollow: the elastic element kernel and the PETSc bootstrap

A shallow embedding of `hollow/elastic/elastic.cpp` (the per-quadrature-point
kernel `Elastic<Model>`) and of `hollow/petsc/init.cpp` (`petsc_finalize`).

* The kernel is generic in the scalar type `T` (the source's `PetscReal`).  The
  definitions only use the arithmetic operations; theorems about loops and
  buffers hold for every such `T`, algebraic theorems are proved for `T` a
  commutative ring, that is in exact arithmetic (rounding is not modelled).
  For the objective guard and the zero-load residual, where infinities and NaN
  matter, the scalars are the type `PetscReal` below: doubles with round to
  nearest, overflow to the infinities, and NaN.
* The material model is the template parameter `Model`: a record of the three
  functions `energy`, `stress`, `differential`.
* The small-vector library (`Vector<T,d>`, `Matrix<T,d>`) and the quadrature
  collaborator (`IGAPoint`, `IGAPointForm*`, `IGAComputeScalarCustom`) are
  external to the kernel.  The library operations the kernel uses are modelled
  from the spec's words; the collaborator's results are fields of the point,
  or a parameter.
* Raw output buffers (`T* b_`, `T* A_`) are functions `Nat → T` from scalar
  offsets to values; the source's cast `(TV*)b_` turns a store `b[k] = v`
  into the `d` scalar stores at offsets `k*d .. k*d+d-1`.
* The slot index of `Elastic::jacobian` is computed in the source's 32-bit
  `int`; an overflow, which the language leaves undefined, is the result
  `none`.
* Status codes (`CHECK`, the `PetscErrorCode` returned) and the diagnostic
  monitor `HOLLOW_MONITOR_J` do not affect the values computed and are left out.
-/

namespace Hollow

/-! ## Vectors and matrices -/

/-- The source's `TV = Vector<T,d>`: a `d`-vector of scalars. -/
abbrev TV (T : Type) (d : Nat) := Fin d → T

/-- The source's `Matrix<T,d>`: `M i` is what the source writes `M[i]`. -/
abbrev Matrix (T : Type) (d : Nat) := Fin d → Fin d → T

section ops

variable {T : Type} {d : Nat}

/-- Modelled from the spec: the library's `dot(u,v)`, the sum of the products
of the components. -/
def dot [Add T] [Mul T] [Zero T] (u v : TV T d) : T :=
  ((List.finRange d).map fun k => u k * v k).sum

/-- Modelled from the spec: the library's `Vector * scalar`, every component
multiplied by the scalar (`rho_g*N0[a]`). -/
def TV.scale [Mul T] (v : TV T d) (s : T) : TV T d := fun k => v k * s

/-- Modelled from the spec: the library's default-constructed `Matrix<T,d>`,
all entries zero. -/
def Matrix.zero [Zero T] : Matrix T d := fun _ _ => 0

/-- Modelled from the spec: the library's `M[i] = v`, which makes `v` row `i`
of `M` and leaves the other rows alone. -/
def Matrix.setRow (M : Matrix T d) (i : Fin d) (v : TV T d) : Matrix T d :=
  Function.update M i v

/-- Modelled from the spec: the library's `Matrix * Vector`, component `i` is
the dot product of row `i` with the vector. -/
def Matrix.mulVec [Add T] [Mul T] [Zero T] (M : Matrix T d) (v : TV T d) : TV T d :=
  fun i => dot (M i) v

/-- Modelled from the spec: the library's `Matrix + scalar` (`F+1`), the scalar
added to the diagonal entries only. -/
def Matrix.addScalar [Add T] (M : Matrix T d) (c : T) : Matrix T d :=
  fun i j => if i = j then M i j + c else M i j

end ops

/-! ## The kernel's data -/

/-- The template parameter `Model`: the three functions the kernel calls. -/
structure Model (T : Type) (d : Nat) where
  energy : Matrix T d → T
  stress : Matrix T d → Matrix T d
  differential : Matrix T d → Matrix T d → Matrix T d

/-- The data members of `Elastic<Model>`: `model` and `rho_g`. -/
structure Elastic (T : Type) (d : Nat) where
  model : Model T d
  rho_g : TV T d

/-- What the kernel reads of an `IGAPoint p`: `p->nen`, the shape values
`p->shape[0]` and gradients `p->shape[1]`, and the results of the three
interpolation routines of the quadrature collaborator, each a function of the
local field samples `u_` where the routine takes them. -/
structure IGAPoint (T : Type) (d : Nat) where
  nen : Nat
  shape0 : Nat → T
  shape1 : Nat → TV T d
  FormGeomMap : TV T d
  FormValue : (Nat → T) → TV T d
  FormGrad : (Nat → T) → Matrix T d

/-! ## Buffers -/

section buffers

variable {T : Type} {d : Nat}

/-- The store `A[k] = v` through a `TV*` view of a scalar buffer: the scalars
at offsets `k*d + j`, `j < d`, become `v j`. -/
def storeTV (m : Nat → T) (k : Nat) (v : TV T d) : Nat → T :=
  fun n => if h : k * d ≤ n ∧ n < k * d + d then v ⟨n - k * d, by omega⟩ else m n

/-- Perform a sequence of `TV` stores, in order, on a scalar buffer. -/
def runStores (stores : List (Nat × TV T d)) (m : Nat → T) : Nat → T :=
  stores.foldl (fun m s => storeTV m s.1 s.2) m

/-- Turn a sequence of stores whose slots were computed in `int` into the
stores to perform: `none` as soon as one slot computation overflowed. -/
def checkedStores : List (Option Nat × TV T d) → Option (List (Nat × TV T d))
  | [] => some []
  | (some k, v) :: rest => (checkedStores rest).map fun l => (k, v) :: l
  | (none, _) :: _ => none

end buffers

/-! ## The source's `int` -/

/-- The largest value of the source's 32-bit `int`. -/
def INT_MAX : Nat := 2 ^ 31 - 1

/-- The product of two non-negative `int`s; `none` when it overflows, which the
language leaves undefined. -/
def intMul (x y : Nat) : Option Nat := if x * y ≤ INT_MAX then some (x * y) else none

/-- The sum of two non-negative `int`s; `none` when it overflows. -/
def intAdd (x y : Nat) : Option Nat := if x + y ≤ INT_MAX then some (x + y) else none

/-- The slot `(a*d+i)*nen+b` as `Elastic::jacobian` computes it, in `int`. -/
def slotIndex (nen d a i b : Nat) : Option Nat :=
  (intMul a d).bind fun t1 =>
    (intAdd t1 i).bind fun t2 =>
      (intMul t2 nen).bind fun t3 => intAdd t3 b

/-! ## `Elastic<Model>` -/

namespace Elastic

variable {T : Type} {d : Nat}

/-- The source's `Elastic::phi`: the geometric map plus the interpolated
displacement. -/
def phi [Add T] (p : IGAPoint T d) (u_ : Nat → T) : TV T d :=
  let x := p.FormGeomMap
  let u := p.FormValue u_
  x + u

/-- The source's `Elastic::F`: the interpolated displacement gradient, `+1`. -/
def F [Add T] [One T] (p : IGAPoint T d) (u_ : Nat → T) : Matrix T d :=
  let F := p.FormGrad u_
  F.addScalar 1

/-- The source's `Elastic::energy`: the value written to `*energy` (the
collaborator calls it with `n = 1`, which the source asserts). -/
def energy [Add T] [Sub T] [Mul T] [Zero T] [One T]
    (self : Elastic T d) (p : IGAPoint T d) (u : Nat → T) : T :=
  self.model.energy (F p u) - dot self.rho_g (phi p u)

/-- The stores `b[a] = ...` of `Elastic::residual`, in program order. -/
def residualStores [Add T] [Sub T] [Mul T] [Zero T] [One T]
    (self : Elastic T d) (p : IGAPoint T d) (u : Nat → T) : List (Nat × TV T d) :=
  let nen := p.nen
  let N0 := p.shape0
  let N1 := p.shape1
  let F := Elastic.F p u
  let rho_g := self.rho_g
  let P := self.model.stress F
  (List.range nen).map fun a => (a, P.mulVec (N1 a) - rho_g.scale (N0 a))

/-- The source's `Elastic::residual`: the buffer `b_` after the call. -/
def residual [Add T] [Sub T] [Mul T] [Zero T] [One T]
    (self : Elastic T d) (p : IGAPoint T d) (u : Nat → T) (b_ : Nat → T) : Nat → T :=
  runStores (self.residualStores p u) b_

/-- The stores `A[(a*d+i)*nen+b] = ...` of `Elastic::jacobian`, in program
order: the loops over `a`, `i` and `b`, with `dF` and `dP` computed once per
`(a,i)`, and the slot computed in `int`. -/
def jacobianStores [Add T] [Mul T] [Zero T] [One T]
    (self : Elastic T d) (p : IGAPoint T d) (u : Nat → T) : List (Option Nat × TV T d) :=
  let nen := p.nen
  let N1 := p.shape1
  let F := Elastic.F p u
  (List.range nen).flatMap fun a =>
    (List.finRange d).flatMap fun i =>
      let dF := (Matrix.zero : Matrix T d).setRow i (N1 a)
      let dP := self.model.differential F dF
      (List.range nen).map fun b => (slotIndex nen d a i b, dP.mulVec (N1 b))

/-- The source's `Elastic::jacobian`: the buffer `A_` after the call, or `none`
when a slot computation overflowed the `int`. -/
def jacobian [Add T] [Mul T] [Zero T] [One T]
    (self : Elastic T d) (p : IGAPoint T d) (u : Nat → T) (A_ : Nat → T) :
    Option (Nat → T) :=
  (checkedStores (self.jacobianStores p u)).map fun stores => runStores stores A_

/-- The stores of `Elastic::jacobian` with the slot `(a*d+i)*nen+b` taken as a
natural number: what `jacobianStores` is when no slot computation overflows. -/
def exactStores [Add T] [Mul T] [Zero T] [One T]
    (self : Elastic T d) (p : IGAPoint T d) (u : Nat → T) : List (Nat × TV T d) :=
  let nen := p.nen
  let N1 := p.shape1
  let F := Elastic.F p u
  (List.range nen).flatMap fun a =>
    (List.finRange d).flatMap fun i =>
      let dF := (Matrix.zero : Matrix T d).setRow i (N1 a)
      let dP := self.model.differential F dF
      (List.range nen).map fun b => ((a * d + i) * nen + b, dP.mulVec (N1 b))

end Elastic

/-! ## The objective guard

`Elastic::objective` tests its scalar with `isfinite`, so its scalars are
modelled with the special values that test distinguishes. -/

/-- A `PetscReal` (a double) as `isfinite` sees it: a finite number, one of the
two infinities, or a NaN.  The sign of a zero is not kept. -/
inductive PetscReal where
  | finite (q : ℚ)
  | posInf
  | negInf
  | nan
deriving DecidableEq

namespace PetscReal

/-- The library's `isfinite`: neither an infinity nor a NaN. -/
def isfinite : PetscReal → Bool
  | finite _ => true
  | _ => false

/-- Negation, with the special values of the floating-point standard. -/
def neg : PetscReal → PetscReal
  | finite q => finite (-q)
  | posInf => negInf
  | negInf => posInf
  | nan => nan

/-- Round to the nearest integer, ties to the even one. -/
def roundHalfEven (q : ℚ) : ℤ :=
  let f := ⌊q⌋
  let r := q - f
  if r < 1 / 2 then f else if 1 / 2 < r then f + 1 else if f % 2 = 0 then f else f + 1

/-- The double nearest to the exact result `q` of an operation (round to
nearest, ties to even): 53 significant bits, exponents from `-1022` (with
gradual underflow below) to `1023`, and overflow to the infinity of the sign
of `q` once the rounded value reaches `2^1024`. -/
def round64 (q : ℚ) : PetscReal :=
  if q = 0 then finite 0 else
  let e : ℤ := max (Int.log 2 |q|) (-1022)
  let ulp : ℚ := 2 ^ (e - 52)
  let r : ℚ := roundHalfEven (q / ulp) * ulp
  if 2 ^ (1024 : ℤ) ≤ |r| then (if 0 < q then posInf else negInf) else finite r

/-- Addition: the exact sum of finite values, rounded; `∞ + (-∞)` is a NaN. -/
def add : PetscReal → PetscReal → PetscReal
  | finite a, finite b => round64 (a + b)
  | nan, _ => nan
  | _, nan => nan
  | posInf, negInf => nan
  | negInf, posInf => nan
  | posInf, _ => posInf
  | _, posInf => posInf
  | negInf, _ => negInf
  | _, negInf => negInf

/-- The product of an infinity (`pos` tells its sign) with a finite value. -/
def infTimes (pos : Bool) (q : ℚ) : PetscReal :=
  if q = 0 then nan else if decide (0 < q) = pos then posInf else negInf

/-- Multiplication: the exact product of finite values, rounded; `0 * ∞` is a
NaN. -/
def mul : PetscReal → PetscReal → PetscReal
  | finite a, finite b => round64 (a * b)
  | nan, _ => nan
  | _, nan => nan
  | posInf, finite q => infTimes true q
  | finite q, posInf => infTimes true q
  | negInf, finite q => infTimes false q
  | finite q, negInf => infTimes false q
  | posInf, posInf => posInf
  | negInf, negInf => posInf
  | posInf, negInf => negInf
  | negInf, posInf => negInf

/-- The comparison `x <= y`: false as soon as one side is a NaN. -/
def le : PetscReal → PetscReal → Bool
  | finite a, finite b => decide (a ≤ b)
  | nan, _ => false
  | _, nan => false
  | negInf, _ => true
  | _, posInf => true
  | _, _ => false

instance : Zero PetscReal := ⟨finite 0⟩
instance : One PetscReal := ⟨finite 1⟩
instance : Add PetscReal := ⟨add⟩
instance : Sub PetscReal := ⟨fun x y => add x (neg y)⟩
instance : Mul PetscReal := ⟨mul⟩
instance : LE PetscReal := ⟨fun x y => le x y = true⟩
instance (x y : PetscReal) : Decidable (x ≤ y) := inferInstanceAs (Decidable (le x y = true))

end PetscReal

namespace Elastic

variable {d : Nat}

/-- The source's `Elastic::objective`: the value left in `*energy`.  The
quadrature sum is the collaborator's `IGAComputeScalarCustom`, which is handed the field `u` and
the point function `Elastic::energy`; the diagnostic monitor does not touch
the value. -/
def objective {V : Type} (self : Elastic PetscReal d)
    (IGAComputeScalarCustom :
      V → (IGAPoint PetscReal d → (Nat → PetscReal) → PetscReal) → PetscReal)
    (u : V) : PetscReal :=
  let energy := IGAComputeScalarCustom u (fun p u => self.energy p u)
  if !PetscReal.isfinite energy then PetscReal.finite (10 ^ 10) else energy

end Elastic

/-! ## Notions the properties are stated with -/

section notions

variable {T : Type} {d : Nat}

/-- The identity matrix `I`. -/
def Matrix.identity [Zero T] [One T] : Matrix T d := fun i j => if i = j then 1 else 0

/-- The determinant, by expansion along the first row. -/
def det [Add T] [Sub T] [Mul T] [Zero T] [One T] : (d : Nat) → Matrix T d → T
  | 0, _ => 1
  | d + 1, M =>
    (List.finRange (d + 1)).foldl (fun acc j =>
      let t := M 0 j * det d (fun r c => M r.succ (j.succAbove c))
      if j.val % 2 = 0 then acc + t else acc - t) 0

/-- The scalar offsets a sequence of `TV` stores writes, in order. -/
def scalarOffsets (stores : List (Nat × TV T d)) : List Nat :=
  stores.flatMap fun s => (List.range d).map fun j => s.1 * d + j

/-- A quadrature of one point `p` with unit weight: the sum is the point
function's value at `p`. -/
def onePoint (p : IGAPoint T d) :
    (Nat → T) → (IGAPoint T d → (Nat → T) → T) → T :=
  fun u f => f p u

end notions

/-! ## `petsc_finalize` -/

/-- A sample material in the plane with a quadratic energy:
`energy(F) = |E|² + tr(E)²/2` with `E = F - I`, stress `2E + tr(E) I` and
differential `2 dF + tr(dF) I`. -/
def sampleModel : Model ℚ 2 where
  energy F :=
    (∑ i, ∑ j, (F i j - Matrix.identity i j) ^ 2)
      + (∑ i, (F i i - 1)) ^ 2 / 2
  stress F := fun i j =>
    2 * (F i j - Matrix.identity i j) + (∑ k, (F k k - 1)) * Matrix.identity i j
  differential _ dF := fun i j => 2 * dF i j + (∑ k, dF k k) * Matrix.identity i j

/-- A sample kernel: the sample material under the body force `(0, -3)`. -/
def sampleElastic : Elastic ℚ 2 where
  model := sampleModel
  rho_g := fun k => if k = 0 then 0 else -3

/-- A sample material whose differential depends on `F`: energy `(F:F)²/4`,
stress `(F:F) F` and differential `(F:F) dF + 2 (F:dF) F`. -/
def quarticModel : Model ℚ 2 where
  energy F := (∑ r, ∑ c, F r c * F r c) ^ 2 / 4
  stress F := fun i j => (∑ r, ∑ c, F r c * F r c) * F i j
  differential F dF := fun i j =>
    (∑ r, ∑ c, F r c * F r c) * dF i j + 2 * (∑ r, ∑ c, F r c * dF r c) * F i j

/-- The quartic sample material under the body force `(0, -3)`. -/
def quarticElastic : Elastic ℚ 2 where
  model := quarticModel
  rho_g := fun k => if k = 0 then 0 else -3

/-- A kernel in dimension `d` whose stress is `F` and whose differential is
`dF`, without body force. -/
def plainElastic (d : Nat) : Elastic ℚ d where
  model := { energy := fun _ => 0, stress := fun F => F, differential := fun _ dF => dF }
  rho_g := 0

/-- A quadrature point with `nen` local nodes and zero shape data. -/
def hugePoint (d nen : Nat) : IGAPoint ℚ d where
  nen := nen
  shape0 := fun _ => 0
  shape1 := fun _ _ => 0
  FormGeomMap := fun _ => 0
  FormValue := fun _ _ => 0
  FormGrad := fun _ _ _ => 0

/-- A sample quadrature point with two local nodes; the field is interpolated
from the nodal samples `u_[a*2+i]` with the point's shape data. -/
def samplePoint : IGAPoint ℚ 2 where
  nen := 2
  shape0 := fun _ => 1 / 2
  shape1 := fun a k => if a = 0 then (if k = 0 then -1 else 2) else (if k = 0 then 1 else 3)
  FormGeomMap := fun k => if k = 0 then 1 else 4
  FormValue := fun u_ i => ∑ a in Finset.range 2, (1 / 2) * u_ (a * 2 + i.val)
  FormGrad := fun u_ i k => ∑ a in Finset.range 2,
    u_ (a * 2 + i.val) * (if a = 0 then (if k = 0 then -1 else 2) else (if k = 0 then 1 else 3))

/-- Sample nodal displacements. -/
def sampleField : Nat → ℚ := fun n => (n : ℚ) / 4

/-- A material over the guarded scalars whose energy `|F|²` is finite at every
finite `F`, inverted or not. -/
def sumSquaresModel : Model PetscReal 2 where
  energy F := dot (F 0) (F 0) + dot (F 1) (F 1)
  stress F := F
  differential _ dF := dF

/-- A material over the guarded scalars whose energy is `+∞` on inverted and
degenerate `F` and zero elsewhere. -/
def barrierModel : Model PetscReal 2 where
  energy F := if det 2 F ≤ 0 then PetscReal.posInf else 0
  stress F := F
  differential _ dF := dF

/-- A material over the doubles with stress `F - I` and differential `dF`. -/
def offsetModel : Model PetscReal 2 where
  energy := fun _ => 0
  stress := fun F i j => F i j - Matrix.identity i j
  differential := fun _ dF => dF

/-- A quadrature point at rest (zero displacement, zero gradient) with two
local nodes and finite shape data. -/
def restPoint : IGAPoint PetscReal 2 where
  nen := 2
  shape0 := fun _ => PetscReal.finite (1 / 2)
  shape1 := fun a k => if a = 0 then PetscReal.finite (-1) else PetscReal.finite (k.val + 2)
  FormGeomMap := fun _ => 0
  FormValue := fun _ _ => 0
  FormGrad := fun _ _ _ => 0

/-- A quadrature point at rest whose shape gradients are infinite. -/
def infinitePoint : IGAPoint PetscReal 2 where
  nen := 1
  shape0 := fun _ => 1
  shape1 := fun _ _ => PetscReal.posInf
  FormGeomMap := fun _ => 0
  FormValue := fun _ _ => 0
  FormGrad := fun _ _ _ => 0

/-- A quadrature point whose displacement gradient is `diag(-2, 0)`, so that
`F = diag(-1, 1)` is inverted. -/
def invertedPoint : IGAPoint PetscReal 2 where
  nen := 1
  shape0 := fun _ => 1
  shape1 := fun _ _ => 0
  FormGeomMap := fun _ => 0
  FormValue := fun _ _ => 0
  FormGrad := fun _ i j => if i = 0 ∧ j = 0 then PetscReal.finite (-2) else 0

/-! ## Buffer lemmas -/

section bufferLemmas

variable {T : Type} {d : Nat}

theorem storeTV_hit (m : Nat → T) (k : Nat) (v : TV T d) (j : Fin d) :
    storeTV m k v (k * d + j.val) = v j := by
  have h : k * d ≤ k * d + j.val ∧ k * d + j.val < k * d + d := ⟨by omega, by omega⟩
  simp only [storeTV, dif_pos h]
  congr 1
  apply Fin.ext
  simp

theorem storeTV_miss (m : Nat → T) (k : Nat) (v : TV T d) (n : Nat)
    (h : ¬ (k * d ≤ n ∧ n < k * d + d)) : storeTV m k v n = m n := by
  simp only [storeTV, dif_neg h]

/-- Two different `TV` slots do not overlap. -/
theorem slot_disjoint {k k' : Nat} (hk : k' ≠ k) (j : Fin d) :
    ¬ (k' * d ≤ k * d + j.val ∧ k * d + j.val < k' * d + d) := by
  have hj := j.isLt
  rcases Nat.lt_or_gt_of_ne hk with h | h
  · have h1 : (k' + 1) * d ≤ k * d := Nat.mul_le_mul_right d h
    rw [Nat.add_mul, Nat.one_mul] at h1
    omega
  · have h1 : (k + 1) * d ≤ k' * d := Nat.mul_le_mul_right d h
    rw [Nat.add_mul, Nat.one_mul] at h1
    omega

/-- A scalar that no store of the sequence covers keeps its value. -/
theorem runStores_untouched (stores : List (Nat × TV T d)) (m : Nat → T) (n : Nat)
    (h : ∀ s ∈ stores, ¬ (s.1 * d ≤ n ∧ n < s.1 * d + d)) :
    runStores stores m n = m n := by
  induction stores generalizing m with
  | nil => rfl
  | cons s rest ih =>
    have h1 := ih (storeTV m s.1 s.2) (fun t ht => h t (List.mem_cons_of_mem _ ht))
    have h2 := storeTV_miss m s.1 s.2 n (h s (List.mem_cons_self _ _))
    simp only [runStores, List.foldl_cons] at h1 ⊢
    rw [h1, h2]

/-- When no slot is stored twice, a stored slot holds the value stored there. -/
theorem runStores_stored (stores : List (Nat × TV T d)) (m : Nat → T)
    (hnd : (stores.map Prod.fst).Nodup) (k : Nat) (v : TV T d)
    (hmem : (k, v) ∈ stores) (j : Fin d) :
    runStores stores m (k * d + j.val) = v j := by
  induction stores generalizing m with
  | nil => simp at hmem
  | cons s rest ih =>
    rw [List.map_cons, List.nodup_cons] at hnd
    rcases List.mem_cons.mp hmem with h | h
    · subst h
      have h1 := runStores_untouched rest (storeTV m k v) (k * d + j.val) (by
        intro t ht
        apply slot_disjoint _ j
        intro hEq
        exact hnd.1 (List.mem_map.mpr ⟨t, ht, hEq⟩))
      simp only [runStores, List.foldl_cons] at h1 ⊢
      rw [h1, storeTV_hit]
    · have h1 := ih (storeTV m s.1 s.2) hnd.2 h
      simp only [runStores, List.foldl_cons] at h1 ⊢
      exact h1

end bufferLemmas

/-! ## The residual -/

section residual

variable {T : Type} {d : Nat} [Add T] [Sub T] [Mul T] [Zero T] [One T]

theorem residualStores_fst (self : Elastic T d) (p : IGAPoint T d) (u : Nat → T) :
    (self.residualStores p u).map Prod.fst = List.range p.nen := by
  simp [Elastic.residualStores, Function.comp_def]

theorem residual_entry (self : Elastic T d) (p : IGAPoint T d) (u b_ : Nat → T)
    (a : Nat) (ha : a < p.nen) (j : Fin d) :
    self.residual p u b_ (a * d + j.val) =
      ((self.model.stress (Elastic.F p u)).mulVec (p.shape1 a)
        - self.rho_g.scale (p.shape0 a)) j := by
  apply runStores_stored
  · rw [residualStores_fst]
    exact List.nodup_range _
  · simp only [Elastic.residualStores, List.mem_map, List.mem_range]
    exact ⟨a, ha, rfl⟩

end residual

/-! ## The tangent: where the stores go -/

section blocks

theorem range_flatMap_block (m n : Nat) :
    (List.range m).flatMap (fun a => (List.range n).map fun b => a * n + b)
      = List.range (m * n) := by
  induction m with
  | zero => simp
  | succ m ih =>
    rw [List.range_succ, List.flatMap_append, ih, Nat.succ_mul, List.range_add]
    simp

theorem finRange_flatMap_val {β : Type} (d : Nat) (g : Nat → List β) :
    (List.finRange d).flatMap (fun i => g i.val) = (List.range d).flatMap g := by
  rw [← List.map_coe_finRange, List.flatMap_map]

/-- The three loops of `Elastic::jacobian` visit the slots in increasing
order. -/
theorem loops_flatMap_block (nen d : Nat) :
    ((List.range nen).flatMap fun a =>
      (List.finRange d).flatMap fun i =>
        (List.range nen).map fun b => (a * d + i.val) * nen + b)
      = List.range (nen * d * nen) := by
  rw [← range_flatMap_block (nen * d) nen, ← range_flatMap_block nen d, List.flatMap_assoc]
  congr 1
  funext a
  rw [List.flatMap_map]
  exact finRange_flatMap_val d (fun i => (List.range nen).map fun b => (a * d + i) * nen + b)

/-- The slot `(a*d+i)*nen+b` lies inside the `nen*d*nen` slots. -/
theorem slot_lt {nen d a i b : Nat} (ha : a < nen) (hi : i < d) (hb : b < nen) :
    (a * d + i) * nen + b < nen * d * nen := by
  have h1 : a * d + i + 1 ≤ nen * d := by
    have h := Nat.mul_le_mul_right d (Nat.succ_le_of_lt ha)
    rw [Nat.succ_mul] at h
    omega
  have h2 := Nat.mul_le_mul_right nen h1
  rw [Nat.add_mul, Nat.one_mul] at h2
  omega

/-- Mixed-radix digits are unique: `x*n + y` with `y < n` determines both. -/
theorem radix_inj {n x y x' y' : Nat} (hy : y < n) (hy' : y' < n)
    (h : x * n + y = x' * n + y') : x = x' ∧ y = y' := by
  have hn : 0 < n := Nat.lt_of_le_of_lt (Nat.zero_le y) hy
  have hx : x = x' := by
    have h1 : (x * n + y) / n = x := by
      rw [Nat.mul_comm, Nat.mul_add_div hn, Nat.div_eq_of_lt hy, Nat.add_zero]
    have h2 : (x' * n + y') / n = x' := by
      rw [Nat.mul_comm, Nat.mul_add_div hn, Nat.div_eq_of_lt hy', Nat.add_zero]
    rw [← h1, ← h2, h]
  subst hx
  exact ⟨rfl, Nat.add_left_cancel h⟩

theorem slot_inj {nen d a i b a' i' b' : Nat} (hi : i < d) (hb : b < nen)
    (hi' : i' < d) (hb' : b' < nen)
    (h : (a * d + i) * nen + b = (a' * d + i') * nen + b') : a = a' ∧ i = i' ∧ b = b' := by
  obtain ⟨h1, h2⟩ := radix_inj hb hb' h
  obtain ⟨h3, h4⟩ := radix_inj hi hi' h1
  exact ⟨h3, h4, h2⟩

theorem slot_surj {nen d k : Nat} (hk : k < nen * d * nen) :
    ∃ a i b, a < nen ∧ i < d ∧ b < nen ∧ (a * d + i) * nen + b = k := by
  have hnen : 0 < nen := by
    rcases Nat.eq_zero_or_pos nen with h | h
    · subst h
      simp at hk
    · exact h
  have hd : 0 < d := by
    rcases Nat.eq_zero_or_pos d with h | h
    · subst h
      simp at hk
    · exact h
  refine ⟨k / nen / d, k / nen % d, k % nen, ?_, Nat.mod_lt _ hd, Nat.mod_lt _ hnen, ?_⟩
  · rw [Nat.div_lt_iff_lt_mul hd, Nat.div_lt_iff_lt_mul hnen]
    exact hk
  · rw [Nat.div_add_mod', Nat.div_add_mod']

end blocks

theorem setRow_zero {T : Type} {d : Nat} [Zero T] (i : Fin d) (v : TV T d) :
    (Matrix.zero : Matrix T d).setRow i v = fun r k => if r = i then v k else 0 := by
  funext r k
  by_cases h : r = i
  · subst h
    simp [Matrix.setRow]
  · simp [Matrix.setRow, Matrix.zero, Function.update_noteq h, h]

section intSlots

variable {T : Type} {d : Nat}

/-- While the slot count `nen*d*nen` is at most `2^31`, the `int` computation
of a slot does not overflow and gives `(a*d+i)*nen+b`. -/
theorem slotIndex_eq_some {nen d a i b : Nat} (ha : a < nen) (hi : i < d) (hb : b < nen)
    (hfit : nen * d * nen ≤ 2 ^ 31) :
    slotIndex nen d a i b = some ((a * d + i) * nen + b) := by
  have h1 := slot_lt ha hi hb
  have hnen : 0 < nen := Nat.lt_of_le_of_lt (Nat.zero_le b) hb
  have h2 : a * d + i ≤ (a * d + i) * nen := Nat.le_mul_of_pos_right _ hnen
  have e1 : intMul a d = some (a * d) := by
    rw [intMul, if_pos]
    simp only [INT_MAX]
    omega
  have e2 : intAdd (a * d) i = some (a * d + i) := by
    rw [intAdd, if_pos]
    simp only [INT_MAX]
    omega
  have e3 : intMul (a * d + i) nen = some ((a * d + i) * nen) := by
    rw [intMul, if_pos]
    simp only [INT_MAX]
    omega
  have e4 : intAdd ((a * d + i) * nen) b = some ((a * d + i) * nen + b) := by
    rw [intAdd, if_pos]
    simp only [INT_MAX]
    omega
  simp only [slotIndex, e1, e2, e3, e4, Option.some_bind]

theorem flatMap_congr_mem {α β : Type} (l : List α) (f g : α → List β)
    (h : ∀ x ∈ l, f x = g x) : l.flatMap f = l.flatMap g := by
  induction l with
  | nil => rfl
  | cons x rest ih =>
    rw [List.flatMap_cons, List.flatMap_cons, h x (List.mem_cons_self _ _),
      ih (fun y hy => h y (List.mem_cons_of_mem _ hy))]

theorem checkedStores_map_some (l : List (Nat × TV T d)) :
    checkedStores (l.map fun s => (some s.1, s.2)) = some l := by
  induction l with
  | nil => rfl
  | cons s rest ih =>
    rw [List.map_cons, checkedStores, ih]
    rfl

theorem checkedStores_none (l : List (Option Nat × TV T d)) (v : TV T d)
    (h : (none, v) ∈ l) : checkedStores l = none := by
  induction l with
  | nil => simp at h
  | cons s rest ih =>
    rcases s with ⟨k, w⟩
    cases k with
    | none => rfl
    | some k =>
      have hrest : (none, v) ∈ rest := by
        rcases List.mem_cons.mp h with h1 | h1
        · simp at h1
        · exact h1
      rw [checkedStores, ih hrest]
      rfl

end intSlots

section jacobian

variable {T : Type} {d : Nat} [Add T] [Mul T] [Zero T] [One T]

theorem exactStores_fst (self : Elastic T d) (p : IGAPoint T d) (u : Nat → T) :
    (self.exactStores p u).map Prod.fst = List.range (p.nen * d * p.nen) := by
  simp only [Elastic.exactStores, List.map_flatMap, List.map_map, Function.comp_def]
  exact loops_flatMap_block p.nen d

theorem exactStores_mem (self : Elastic T d) (p : IGAPoint T d) (u : Nat → T)
    (a : Nat) (ha : a < p.nen) (i : Fin d) (b : Nat) (hb : b < p.nen) :
    ((a * d + i.val) * p.nen + b,
      (self.model.differential (Elastic.F p u)
        (fun r k => if r = i then p.shape1 a k else 0)).mulVec (p.shape1 b))
      ∈ self.exactStores p u := by
  simp only [Elastic.exactStores, List.mem_flatMap, List.mem_map, List.mem_range]
  exact ⟨a, ha, i, List.mem_finRange i, b, hb, by rw [setRow_zero]⟩

theorem exactStores_entry (self : Elastic T d) (p : IGAPoint T d) (u A_ : Nat → T)
    (a : Nat) (ha : a < p.nen) (i : Fin d) (b : Nat) (hb : b < p.nen) (j : Fin d) :
    runStores (self.exactStores p u) A_ (((a * d + i.val) * p.nen + b) * d + j.val) =
      (self.model.differential (Elastic.F p u)
        (fun r k => if r = i then p.shape1 a k else 0)).mulVec (p.shape1 b) j := by
  apply runStores_stored
  · rw [exactStores_fst]
    exact List.nodup_range _
  · exact exactStores_mem self p u a ha i b hb

theorem exactStores_scalarOffsets (self : Elastic T d) (p : IGAPoint T d) (u : Nat → T) :
    scalarOffsets (self.exactStores p u) = List.range (p.nen * d * p.nen * d) := by
  have h : scalarOffsets (self.exactStores p u)
      = ((self.exactStores p u).map Prod.fst).flatMap
          (fun k => (List.range d).map fun j => k * d + j) := by
    rw [scalarOffsets, List.flatMap_map]
  rw [h, exactStores_fst, range_flatMap_block]

theorem exactStores_untouched (self : Elastic T d) (p : IGAPoint T d) (u A_ : Nat → T)
    (n : Nat) (hn : p.nen * d * p.nen * d ≤ n) :
    runStores (self.exactStores p u) A_ n = A_ n := by
  apply runStores_untouched
  intro s hs
  have hmem : s.1 ∈ (self.exactStores p u).map Prod.fst := List.mem_map.mpr ⟨s, hs, rfl⟩
  rw [exactStores_fst, List.mem_range] at hmem
  have h1 : (s.1 + 1) * d ≤ p.nen * d * p.nen * d := Nat.mul_le_mul_right d hmem
  rw [Nat.add_mul, Nat.one_mul] at h1
  omega

/-- While `nen*d*nen ≤ 2^31` no slot computation of `Elastic::jacobian`
overflows: its stores are the exact ones. -/
theorem jacobianStores_eq (self : Elastic T d) (p : IGAPoint T d) (u : Nat → T)
    (hfit : p.nen * d * p.nen ≤ 2 ^ 31) :
    self.jacobianStores p u = (self.exactStores p u).map fun s => (some s.1, s.2) := by
  simp only [Elastic.jacobianStores, Elastic.exactStores, List.map_flatMap, List.map_map]
  apply flatMap_congr_mem
  intro a ha
  apply flatMap_congr_mem
  intro i _
  apply List.map_congr_left
  intro b hb
  simp only [Function.comp_apply]
  rw [slotIndex_eq_some (List.mem_range.mp ha) i.isLt (List.mem_range.mp hb) hfit]

theorem jacobian_eq_some (self : Elastic T d) (p : IGAPoint T d) (u A_ : Nat → T)
    (hfit : p.nen * d * p.nen ≤ 2 ^ 31) :
    self.jacobian p u A_ = some (runStores (self.exactStores p u) A_) := by
  rw [Elastic.jacobian, jacobianStores_eq self p u hfit, checkedStores_map_some]
  rfl

/-- A slot computation that overflows leaves the call without a result. -/
theorem jacobian_eq_none (self : Elastic T d) (p : IGAPoint T d) (u A_ : Nat → T)
    (a : Nat) (ha : a < p.nen) (i : Fin d) (b : Nat) (hb : b < p.nen)
    (hover : slotIndex p.nen d a i.val b = none) :
    self.jacobian p u A_ = none := by
  have hmem : (none, (self.model.differential (Elastic.F p u)
      ((Matrix.zero : Matrix T d).setRow i (p.shape1 a))).mulVec (p.shape1 b))
        ∈ self.jacobianStores p u := by
    simp only [Elastic.jacobianStores, List.mem_flatMap, List.mem_map, List.mem_range]
    exact ⟨a, ha, i, List.mem_finRange i, b, hb, by rw [hover]⟩
  rw [Elastic.jacobian, checkedStores_none _ _ hmem]
  rfl

/-- C2, amended. While `nen*d*nen ≤ 2^31` (no slot computation overflows the
`int`), `Elastic::jacobian` returns, and for trial node `a < nen`, component
`i < d` and test node `b < nen` the `d`-vector in slot `(a*d+i)*nen+b` of the
tangent buffer is `dP*N1[b]`, where `dP = model.differential(F, dF)`, `F` is
the displacement gradient `G` with `1` added on the diagonal, and `dF` has
`N1[a]` as row `i` and zero rows elsewhere. -/
theorem jacobian_spec (self : Elastic T d) (p : IGAPoint T d) (u A_ : Nat → T)
    (hfit : p.nen * d * p.nen ≤ 2 ^ 31)
    (a : Nat) (ha : a < p.nen) (i : Fin d) (b : Nat) (hb : b < p.nen) (j : Fin d) :
    (self.jacobian p u A_).map (fun A => A (((a * d + i.val) * p.nen + b) * d + j.val)) =
      some ((self.model.differential
          (fun r c => if r = c then p.FormGrad u r c + 1 else p.FormGrad u r c)
          (fun r k => if r = i then p.shape1 a k else 0)).mulVec (p.shape1 b) j) := by
  rw [jacobian_eq_some self p u A_ hfit, Option.map_some', exactStores_entry self p u A_ a ha i b hb j]
  rfl

/-- C10, amended. While `nen*d*nen ≤ 2^31`: the slot map
`(a,i,b) ↦ (a*d+i)*nen+b` of `Elastic::jacobian` sends
`[0,nen) × [0,d) × [0,nen)` one-to-one onto `[0, nen*d*nen)` and its `int`
computation gives that value; the call returns, its stores go to the slots
`0, 1, ..., nen*d*nen-1`, once each, and cover the scalar offsets
`0, ..., nen*d*nen*d-1`, once each (`nen*nen*d*d` scalars, none outside);
every scalar from offset `nen*d*nen*d` on is untouched; and component `j` of
`tangent[a,i,b]` is at scalar offset `((a*d+i)*nen+b)*d+j`. -/
theorem jacobian_layout (self : Elastic T d) (p : IGAPoint T d) (u A_ : Nat → T)
    (hfit : p.nen * d * p.nen ≤ 2 ^ 31) :
    (∀ a i b, a < p.nen → i < d → b < p.nen → (a * d + i) * p.nen + b < p.nen * d * p.nen) ∧
    (∀ a i b a' i' b', i < d → b < p.nen → i' < d → b' < p.nen →
      (a * d + i) * p.nen + b = (a' * d + i') * p.nen + b' → a = a' ∧ i = i' ∧ b = b') ∧
    (∀ k, k < p.nen * d * p.nen →
      ∃ a i b, a < p.nen ∧ i < d ∧ b < p.nen ∧ (a * d + i) * p.nen + b = k) ∧
    (∀ a i b, a < p.nen → i < d → b < p.nen →
      slotIndex p.nen d a i b = some ((a * d + i) * p.nen + b)) ∧
    (∃ stores : List (Nat × TV T d),
      checkedStores (self.jacobianStores p u) = some stores ∧
      self.jacobian p u A_ = some (runStores stores A_) ∧
      stores.map Prod.fst = List.range (p.nen * d * p.nen) ∧
      scalarOffsets stores = List.range (p.nen * d * p.nen * d) ∧
      (scalarOffsets stores).length = p.nen * p.nen * d * d ∧
      (∀ n, p.nen * d * p.nen * d ≤ n → runStores stores A_ n = A_ n) ∧
      (∀ a, a < p.nen → ∀ i : Fin d, ∀ b, b < p.nen → ∀ j : Fin d,
        runStores stores A_ (((a * d + i.val) * p.nen + b) * d + j.val) =
          (self.model.differential
            (fun r c => if r = c then p.FormGrad u r c + 1 else p.FormGrad u r c)
            (fun r k => if r = i then p.shape1 a k else 0)).mulVec (p.shape1 b) j)) := by
  refine ⟨fun a i b ha hi hb => slot_lt ha hi hb,
    fun a i b a' i' b' hi hb hi' hb' h => slot_inj hi hb hi' hb' h,
    fun k hk => slot_surj hk,
    fun a i b ha hi hb => slotIndex_eq_some ha hi hb hfit,
    self.exactStores p u, ?_, jacobian_eq_some self p u A_ hfit, exactStores_fst self p u,
    exactStores_scalarOffsets self p u, ?_, exactStores_untouched self p u A_,
    fun a ha i b hb j => exactStores_entry self p u A_ a ha i b hb j⟩
  · rw [jacobianStores_eq self p u hfit, checkedStores_map_some]
  · rw [exactStores_scalarOffsets, List.length_range]
    ring

end jacobian

/-! ## Sums over the components -/

section sums

variable {T : Type} {d : Nat} [CommRing T]

theorem dot_eq_sum (u v : TV T d) : dot u v = ∑ k, u k * v k := by
  rw [dot, Fin.sum_univ_def]

theorem mulVec_eq_sum (M : Matrix T d) (v : TV T d) (i : Fin d) :
    M.mulVec v i = ∑ k, M i k * v k := by
  rw [Matrix.mulVec, dot_eq_sum]

theorem F_eq_identity_add (p : IGAPoint T d) (u_ : Nat → T) (i j : Fin d) :
    Elastic.F p u_ i j = (Matrix.identity : Matrix T d) i j + p.FormGrad u_ i j := by
  simp only [Elastic.F, Matrix.addScalar, Matrix.identity]
  split <;> ring

end sums

/-! ## Energy density and kinematics -/

section energy

variable {T : Type} {d : Nat} [CommRing T]

/-- C7. `Elastic::F` returns `I + G`, with `G` the interpolated displacement
gradient (the diagonal entries are `1 + G i i`, the others `0 + G i j`),
`Elastic::phi` returns `x + u`, the geometric map plus the interpolated
displacement, and `Elastic::energy` writes
`model.energy(I + G) - dot(rho_g, x + u)`. -/
theorem energy_spec (self : Elastic T d) (p : IGAPoint T d) (u_ : Nat → T) :
    (∀ i j, Elastic.F p u_ i j = (if i = j then 1 else 0) + p.FormGrad u_ i j) ∧
    (∀ k, Elastic.phi p u_ k = p.FormGeomMap k + p.FormValue u_ k) ∧
    self.energy p u_ =
      self.model.energy (fun i j => (if i = j then 1 else 0) + p.FormGrad u_ i j)
        - ∑ k, self.rho_g k * (p.FormGeomMap k + p.FormValue u_ k) := by
  have hF : Elastic.F p u_ = fun i j => (if i = j then 1 else 0) + p.FormGrad u_ i j := by
    funext i j
    exact F_eq_identity_add p u_ i j
  refine ⟨fun i j => congrFun (congrFun hF i) j, fun k => rfl, ?_⟩
  rw [Elastic.energy, dot_eq_sum, hF]
  rfl

end energy

/-! ## The objective guard -/

section guard

variable {d : Nat} {V : Type}

theorem objective_eq (self : Elastic PetscReal d)
    (cs : V → (IGAPoint PetscReal d → (Nat → PetscReal) → PetscReal) → PetscReal) (u : V) :
    self.objective cs u =
      if PetscReal.isfinite (cs u (fun p u => self.energy p u)) = true
      then cs u (fun p u => self.energy p u) else PetscReal.finite (10 ^ 10) := by
  unfold Elastic.objective
  cases h : PetscReal.isfinite (cs u (fun p u => self.energy p u)) <;> simp [h]

theorem objective_isfinite (self : Elastic PetscReal d)
    (cs : V → (IGAPoint PetscReal d → (Nat → PetscReal) → PetscReal) → PetscReal) (u : V) :
    PetscReal.isfinite (self.objective cs u) = true := by
  rw [objective_eq]
  split
  · assumption
  · rfl

/-- C4. With `r` the quadrature sum `IGAComputeScalarCustom` delivers,
`Elastic::objective` returns `1e10` when `r` is not finite (each of `+∞`,
`-∞`, NaN) and `r` itself when `r` is finite; the value returned is always
finite; and guarding an already guarded value changes nothing. -/
theorem objective_guard (self : Elastic PetscReal d)
    (cs : V → (IGAPoint PetscReal d → (Nat → PetscReal) → PetscReal) → PetscReal) (u : V) :
    (PetscReal.isfinite (cs u (fun p u => self.energy p u)) = false →
      self.objective cs u = PetscReal.finite (10 ^ 10)) ∧
    (cs u (fun p u => self.energy p u) = PetscReal.posInf →
      self.objective cs u = PetscReal.finite (10 ^ 10)) ∧
    (cs u (fun p u => self.energy p u) = PetscReal.negInf →
      self.objective cs u = PetscReal.finite (10 ^ 10)) ∧
    (cs u (fun p u => self.energy p u) = PetscReal.nan →
      self.objective cs u = PetscReal.finite (10 ^ 10)) ∧
    (PetscReal.isfinite (cs u (fun p u => self.energy p u)) = true →
      self.objective cs u = cs u (fun p u => self.energy p u)) ∧
    PetscReal.isfinite (self.objective cs u) = true ∧
    self.objective (fun _ _ => self.objective cs u) u = self.objective cs u := by
  refine ⟨?_, ?_, ?_, ?_, ?_, objective_isfinite self cs u, ?_⟩
  · intro h
    rw [objective_eq, h]
    rfl
  · intro h
    rw [objective_eq, h]
    rfl
  · intro h
    rw [objective_eq, h]
    rfl
  · intro h
    rw [objective_eq, h]
    rfl
  · intro h
    rw [objective_eq, if_pos h]
  · rw [objective_eq self (fun _ _ => self.objective cs u) u,
      if_pos (objective_isfinite self cs u)]

end guard

/-! ## `petsc_finalize` -/

section inverted

namespace PetscReal

theorem zero_def : (0 : PetscReal) = finite 0 := rfl

theorem one_def : (1 : PetscReal) = finite 1 := rfl

theorem finite_add (a b : ℚ) : finite a + finite b = round64 (a + b) := rfl

theorem finite_sub (a b : ℚ) : finite a - finite b = round64 (a - b) := by
  rw [sub_eq_add_neg]
  rfl

theorem finite_mul (a b : ℚ) : finite a * finite b = round64 (a * b) := rfl

theorem roundHalfEven_intCast (n : ℤ) : roundHalfEven (n : ℚ) = n := by
  simp [roundHalfEven]

theorem roundHalfEven_two_pow : roundHalfEven (4503599627370496 : ℚ) = 4503599627370496 := by
  have h := roundHalfEven_intCast 4503599627370496
  simpa using h

theorem roundHalfEven_neg_two_pow :
    roundHalfEven (-4503599627370496 : ℚ) = -4503599627370496 := by
  have h := roundHalfEven_intCast (-4503599627370496)
  simpa using h

theorem round64_zero : round64 0 = finite 0 := by
  simp [round64]

theorem round64_one : round64 1 = finite 1 := by
  simp only [round64, abs_one, Int.log_one_right]
  norm_num [roundHalfEven_two_pow]

theorem round64_neg_one : round64 (-1) = finite (-1) := by
  simp only [round64, abs_neg, abs_one, Int.log_one_right]
  norm_num [roundHalfEven_two_pow, roundHalfEven_neg_two_pow]

/-- The rounded value of `2^1024`, one more than the largest exponent, is `+∞`. -/
theorem round64_overflow : round64 (2 ^ (1024 : ℤ)) = posInf := by
  have hl : Int.log 2 (|2 ^ (1024 : ℤ)| : ℚ) = 1024 := by
    rw [abs_of_pos (by positivity)]
    exact Int.log_zpow (R := ℚ) (b := 2) (by norm_num) 1024
  have hq : (2 : ℚ) ^ (1024 : ℤ) / 2 ^ (972 : ℤ) = 4503599627370496 := by
    rw [← zpow_sub₀ (by norm_num : (2 : ℚ) ≠ 0)]
    norm_num
  have hr : (4503599627370496 : ℚ) * 2 ^ (972 : ℤ) = 2 ^ (1024 : ℤ) := by
    rw [show (4503599627370496 : ℚ) = 2 ^ (52 : ℤ) by norm_num,
      ← zpow_add₀ (by norm_num : (2 : ℚ) ≠ 0)]
    norm_num
  have h0 : (2 : ℚ) ^ (1024 : ℤ) ≠ 0 := by positivity
  have hpos : (0 : ℚ) < 2 ^ (1024 : ℤ) := by positivity
  simp only [round64, hl, if_neg h0]
  rw [show max (1024 : ℤ) (-1022) - 52 = 972 by decide, hq, roundHalfEven_two_pow]
  push_cast
  rw [hr, abs_of_pos hpos, if_pos (le_refl _), if_pos hpos]

theorem round64_two : round64 2 = finite 2 := by
  have hl : Int.log 2 (|2| : ℚ) = 1 := by
    have h := Int.log_zpow (R := ℚ) (b := 2) (by norm_num) 1
    simpa using h
  simp only [round64, hl]
  norm_num [roundHalfEven_two_pow]

theorem finite_le (a b : ℚ) : finite a ≤ finite b ↔ a ≤ b := by
  show le (finite a) (finite b) = true ↔ a ≤ b
  simp [le]

end PetscReal

theorem finRange_two : List.finRange 2 = [0, 1] := rfl

theorem F_invertedPoint (u : Nat → PetscReal) :
    Elastic.F invertedPoint u
      = fun i j => if i = j then (if i = 0 then PetscReal.finite (-1) else PetscReal.finite 1)
          else PetscReal.finite 0 := by
  funext i j
  fin_cases i <;> fin_cases j <;>
    (simp [Elastic.F, Matrix.addScalar, invertedPoint, PetscReal.zero_def,
      PetscReal.one_def, PetscReal.finite_add]; try norm_num) <;>
    first | exact PetscReal.round64_neg_one | exact PetscReal.round64_one

theorem det_invertedPoint (u : Nat → PetscReal) :
    det 2 (Elastic.F invertedPoint u) = PetscReal.finite (-1) := by
  rw [F_invertedPoint]
  simp [det, finRange_two, List.finRange, PetscReal.zero_def, PetscReal.one_def,
    PetscReal.finite_add, PetscReal.finite_sub, PetscReal.finite_mul, Fin.succAbove,
    PetscReal.round64_zero, PetscReal.round64_one, PetscReal.round64_neg_one]

theorem energy_sumSquares_inverted (u : Nat → PetscReal) :
    (Elastic.mk sumSquaresModel 0).energy invertedPoint u = PetscReal.finite 2 := by
  rw [Elastic.energy, F_invertedPoint]
  simp [sumSquaresModel, dot, finRange_two, Elastic.phi, invertedPoint,
    PetscReal.zero_def, PetscReal.finite_add, PetscReal.finite_sub, PetscReal.finite_mul,
    PetscReal.round64_zero, PetscReal.round64_one, PetscReal.round64_neg_one]
  rw [one_add_one_eq_two, PetscReal.round64_two, PetscReal.finite_sub, sub_zero,
    PetscReal.round64_two]

theorem energy_barrier_inverted (u : Nat → PetscReal) :
    (Elastic.mk barrierModel 0).energy invertedPoint u = PetscReal.posInf := by
  have h : det 2 (Elastic.F invertedPoint u) ≤ 0 := by
    rw [det_invertedPoint, PetscReal.zero_def, PetscReal.finite_le]
    norm_num
  rw [Elastic.energy]
  simp only [barrierModel, if_pos h]
  simp [dot, finRange_two, Elastic.phi, invertedPoint,
    PetscReal.zero_def, PetscReal.finite_add, PetscReal.finite_mul, PetscReal.round64_zero]
  rfl

/-- C5, as the claim states it, fails: at the inverted `F = diag(-1, 1)`
(determinant `-1`) the energy `|F|²` is the finite number `2`, and the guarded
objective returns `2`, not the sentinel `1e10`. -/
theorem objective_inverted_not_sentinel :
    det 2 (Elastic.F invertedPoint (fun _ => 0)) ≤ 0 ∧
    (Elastic.mk sumSquaresModel 0).energy invertedPoint (fun _ => 0) = PetscReal.finite 2 ∧
    (Elastic.mk sumSquaresModel 0).objective (onePoint invertedPoint) (fun _ => 0)
      = PetscReal.finite 2 ∧
    (Elastic.mk sumSquaresModel 0).objective (onePoint invertedPoint) (fun _ => 0)
      ≠ PetscReal.finite (10 ^ 10) := by
  have hobj : (Elastic.mk sumSquaresModel 0).objective (onePoint invertedPoint) (fun _ => 0)
      = PetscReal.finite 2 := by
    rw [objective_eq]
    simp only [onePoint, energy_sumSquares_inverted]
    rfl
  refine ⟨?_, energy_sumSquares_inverted _, hobj, ?_⟩
  · rw [det_invertedPoint, PetscReal.zero_def, PetscReal.finite_le]
    norm_num
  · rw [hobj]
    intro h
    injection h with h
    norm_num at h

/-- C5, amended. For every deformation gradient `F`, with `det(F) ≤ 0` or
not, the guarded objective of the energy density evaluated at `F` (the value
of `Elastic::energy`, `model.energy(F) - dot(rho_g, x + u)`) is that energy
density when it is finite and the sentinel `1e10` when it is not; it is never
an infinity or a NaN.  The determinant is not looked at. -/
theorem objective_inverted {d : Nat} (self : Elastic PetscReal d) (p : IGAPoint PetscReal d)
    (u : Nat → PetscReal) :
    self.objective (onePoint p) u =
      (if PetscReal.isfinite
          (self.model.energy (Elastic.F p u) - dot self.rho_g (Elastic.phi p u)) = true
        then self.model.energy (Elastic.F p u) - dot self.rho_g (Elastic.phi p u)
        else PetscReal.finite (10 ^ 10)) ∧
    PetscReal.isfinite (self.objective (onePoint p) u) = true :=
  ⟨objective_eq self (onePoint p) u, objective_isfinite self (onePoint p) u⟩

/-- The amended C5 at the inverted `F = diag(-1, 1)` with a raw energy `+∞`:
the guarded objective is the sentinel. -/
theorem objective_inverted_witness :
    det 2 (Elastic.F invertedPoint (fun _ => 0)) ≤ 0 ∧
    (Elastic.mk barrierModel 0).energy invertedPoint (fun _ => 0) = PetscReal.posInf ∧
    (Elastic.mk barrierModel 0).objective (onePoint invertedPoint) (fun _ => 0)
      = PetscReal.finite (10 ^ 10) :=
  have hdet : det 2 (Elastic.F invertedPoint (fun _ => 0)) ≤ 0 := by
    rw [det_invertedPoint, PetscReal.zero_def, PetscReal.finite_le]
    norm_num
  have he : barrierModel.energy (Elastic.F invertedPoint (fun _ => 0))
      - dot (0 : TV PetscReal 2) (Elastic.phi invertedPoint (fun _ => 0))
      = PetscReal.posInf := energy_barrier_inverted _
  ⟨hdet, energy_barrier_inverted _,
    (objective_inverted (Elastic.mk barrierModel 0) invertedPoint (fun _ => 0)).1.trans (by
      rw [he]
      rfl)⟩

end inverted

/-! ## Zero load -/

section zeroLoad

variable {d : Nat}

theorem PetscReal.zero_mul_finite (x : PetscReal) (hx : x.isfinite = true) :
    (0 : PetscReal) * x = 0 := by
  cases x with
  | finite q =>
    rw [PetscReal.zero_def, PetscReal.finite_mul, zero_mul, PetscReal.round64_zero]
  | posInf => simp [PetscReal.isfinite] at hx
  | negInf => simp [PetscReal.isfinite] at hx
  | nan => simp [PetscReal.isfinite] at hx

theorem PetscReal.zero_mul_posInf : (0 : PetscReal) * PetscReal.posInf = PetscReal.nan := by
  show PetscReal.infTimes true 0 = PetscReal.nan
  simp [PetscReal.infTimes]

theorem PetscReal.nan_add (x : PetscReal) : PetscReal.nan + x = PetscReal.nan := by
  cases x <;> rfl

theorem PetscReal.nan_sub (x : PetscReal) : PetscReal.nan - x = PetscReal.nan := by
  cases x <;> rfl

theorem PetscReal.zero_add_zero : (0 : PetscReal) + 0 = 0 := by
  rw [PetscReal.zero_def, PetscReal.finite_add, add_zero, PetscReal.round64_zero]

theorem PetscReal.zero_sub_zero : (0 : PetscReal) - 0 = 0 := by
  rw [PetscReal.zero_def, PetscReal.finite_sub, sub_zero, PetscReal.round64_zero]

theorem PetscReal.sum_zeros (l : List PetscReal) (h : ∀ x ∈ l, x = 0) : l.sum = 0 := by
  induction l with
  | nil => rfl
  | cons x rest ih =>
    rw [List.sum_cons, h x (List.mem_cons_self _ _),
      ih (fun y hy => h y (List.mem_cons_of_mem _ hy)), PetscReal.zero_add_zero]

/-- With a zero displacement gradient, `Elastic::F` is the identity, also in
the arithmetic of the doubles. -/
theorem F_rest (p : IGAPoint PetscReal d) (u : Nat → PetscReal)
    (hG : p.FormGrad u = Matrix.zero) : Elastic.F p u = Matrix.identity := by
  funext r c
  simp only [Elastic.F, Matrix.addScalar, Matrix.identity, hG, Matrix.zero]
  split
  · rw [PetscReal.zero_def, PetscReal.one_def, PetscReal.finite_add, zero_add,
      PetscReal.round64_one]
  · rfl

theorem residual_rest_entry (self : Elastic PetscReal d) (p : IGAPoint PetscReal d)
    (u b_ : Nat → PetscReal) (hG : p.FormGrad u = Matrix.zero)
    (a : Nat) (ha : a < p.nen) (j : Fin d) :
    self.residual p u b_ (a * d + j.val) =
      ((self.model.stress Matrix.identity).mulVec (p.shape1 a)
        - self.rho_g.scale (p.shape0 a)) j := by
  rw [residual_entry self p u b_ a ha j, F_rest p u hG]

theorem offsetModel_stress_identity :
    offsetModel.stress Matrix.identity = Matrix.zero := by
  funext i j
  simp only [offsetModel, Matrix.identity, Matrix.zero]
  split
  · rw [PetscReal.one_def, PetscReal.finite_sub, sub_self, PetscReal.round64_zero]
    rfl
  · exact PetscReal.zero_sub_zero

/-- C6, as the claim states it, fails: at rest, without body force and with a
stress that vanishes at the identity, an infinite shape gradient makes the
residual a NaN (`0 * ∞`), not zero. -/
theorem residual_zero_load_infinite :
    infinitePoint.FormGrad (fun _ => 0) = Matrix.zero ∧
    (Elastic.mk offsetModel 0).rho_g = 0 ∧
    offsetModel.stress Matrix.identity = Matrix.zero ∧
    (0 : Nat) < infinitePoint.nen ∧
    (Elastic.mk offsetModel 0).residual infinitePoint (fun _ => 0) (fun _ => 0) 0
      = PetscReal.nan ∧
    (Elastic.mk offsetModel 0).residual infinitePoint (fun _ => 0) (fun _ => 0) 0 ≠ 0 := by
  have hval : (Elastic.mk offsetModel 0).residual infinitePoint (fun _ => 0) (fun _ => 0) 0
      = PetscReal.nan := by
    have h := residual_rest_entry (Elastic.mk offsetModel 0) infinitePoint (fun _ => 0)
      (fun _ => 0) rfl 0 (by decide) 0
    rw [offsetModel_stress_identity] at h
    exact h.trans (by
      simp only [Matrix.mulVec, dot, finRange_two, Matrix.zero, TV.scale, infinitePoint,
        List.map_cons, List.map_nil, List.sum_cons, List.sum_nil, Pi.sub_apply,
        PetscReal.zero_mul_posInf, PetscReal.nan_add, PetscReal.nan_sub])
  refine ⟨rfl, rfl, offsetModel_stress_identity, by decide, hval, ?_⟩
  rw [hval]
  intro h
  cases h

/-- C6, amended. With a zero interpolated displacement gradient (so `F = I`),
zero body force and a model whose stress at the identity is zero,
`Elastic::residual` leaves zero in every component of `b[a]`, for every node
`a < nen` whose shape value and shape gradient are finite. -/
theorem residual_zero_load (self : Elastic PetscReal d) (p : IGAPoint PetscReal d)
    (u b_ : Nat → PetscReal)
    (hG : p.FormGrad u = Matrix.zero) (hrho : self.rho_g = 0)
    (hP : self.model.stress Matrix.identity = Matrix.zero)
    (a : Nat) (ha : a < p.nen)
    (hN0 : (p.shape0 a).isfinite = true) (hN1 : ∀ k, (p.shape1 a k).isfinite = true)
    (j : Fin d) :
    self.residual p u b_ (a * d + j.val) = 0 := by
  rw [residual_rest_entry self p u b_ hG a ha j, hP, hrho]
  have h1 : (Matrix.zero : Matrix PetscReal d).mulVec (p.shape1 a) j = 0 := by
    apply PetscReal.sum_zeros
    intro x hx
    obtain ⟨k, _, hk⟩ := List.mem_map.mp hx
    rw [← hk]
    exact PetscReal.zero_mul_finite _ (hN1 k)
  have h2 : TV.scale (0 : TV PetscReal d) (p.shape0 a) j = 0 :=
    PetscReal.zero_mul_finite _ hN0
  show (Matrix.zero : Matrix PetscReal d).mulVec (p.shape1 a) j
      - TV.scale (0 : TV PetscReal d) (p.shape0 a) j = 0
  rw [h1, h2, PetscReal.zero_sub_zero]

/-- The amended C6 at a point at rest with finite shape data: the second
component of `b[1]`, at scalar offset `3`, is zero. -/
theorem residual_zero_load_witness :
    restPoint.FormGrad (fun _ => 0) = Matrix.zero ∧
    (Elastic.mk offsetModel 0).rho_g = 0 ∧
    offsetModel.stress Matrix.identity = Matrix.zero ∧
    (1 : Nat) < restPoint.nen ∧
    (restPoint.shape0 1).isfinite = true ∧
    (∀ k, (restPoint.shape1 1 k).isfinite = true) ∧
    (Elastic.mk offsetModel 0).residual restPoint (fun _ => 0) (fun _ => PetscReal.finite 7) 3
      = 0 :=
  ⟨rfl, rfl, offsetModel_stress_identity, by decide, rfl, fun _ => rfl,
    residual_zero_load (Elastic.mk offsetModel 0) restPoint (fun _ => 0)
      (fun _ => PetscReal.finite 7)
      rfl rfl offsetModel_stress_identity 1 (by decide) rfl (fun _ => rfl) 1⟩

end zeroLoad

/-! ## The theorems at the sample data -/

section samples

/-- C7 at the sample point: the energy density is `931/32`. -/
theorem energy_spec_witness :
    sampleElastic.energy samplePoint sampleField = 931 / 32 :=
  (energy_spec sampleElastic samplePoint sampleField).2.2.trans (by
    simp [sampleElastic, sampleModel, samplePoint, sampleField, Matrix.identity,
      Fin.sum_univ_two, Finset.sum_range_succ]
    norm_num)

/-- C2, as the claim states it, fails: at a point with `nen = 26755` local
nodes in dimension `3`, the slot of trial node `26754`, component `2`, test
node `26754` is `2147490074`, beyond the `int`; the computation overflows and
the call has no defined result. -/
theorem jacobian_spec_overflow :
    (26754 : Nat) < (hugePoint 3 26755).nen ∧
    (26754 * 3 + 2) * 26755 + 26754 = 2147490074 ∧
    INT_MAX = 2147483647 ∧
    slotIndex 26755 3 26754 2 26754 = none ∧
    (plainElastic 3).jacobian (hugePoint 3 26755) (fun _ => 0) (fun _ => 0) = none :=
  ⟨by decide, by decide, by decide, by decide,
    jacobian_eq_none (plainElastic 3) (hugePoint 3 26755) (fun _ => 0) (fun _ => 0)
      26754 (by decide) 2 26754 (by decide) (by decide)⟩

/-- The amended C2 at the sample point with the quartic material: trial node
`1`, component `1`, test node `0`; the first component of `tangent[1,1,0]` is at
scalar offset `12` and equals `141/4`. -/
theorem jacobian_spec_witness :
    samplePoint.nen * 2 * samplePoint.nen ≤ 2 ^ 31 ∧
    1 < samplePoint.nen ∧ 0 < samplePoint.nen ∧
    (quarticElastic.jacobian samplePoint sampleField (fun _ => 0)).map (fun A => A 12)
      = some (141 / 4) :=
  ⟨by decide, by decide, by decide,
    (jacobian_spec quarticElastic samplePoint sampleField (fun _ => 0) (by decide)
      1 (by decide) 1 0 (by decide) 0).trans (by
        simp [mulVec_eq_sum, quarticElastic, quarticModel, samplePoint, sampleField,
          Fin.sum_univ_two, Finset.sum_range_succ]
        norm_num)⟩

/-- C10, as the claim states it, fails: for `nen = 32769` and `d = 2` the slot
of `(a,i,b) = (32768, 1, 32768)` needs the product `65537 * 32769 = 2147581953`,
beyond the `int`; the computation overflows and the call has no defined
result, so nothing is promised about where it writes. -/
theorem jacobian_layout_overflow :
    1 ≤ (hugePoint 2 32769).nen ∧
    (32768 : Nat) < (hugePoint 2 32769).nen ∧
    (32768 * 2 + 1) * 32769 = 2147581953 ∧
    INT_MAX = 2147483647 ∧
    slotIndex 32769 2 32768 1 32768 = none ∧
    (plainElastic 2).jacobian (hugePoint 2 32769) (fun _ => 0) (fun _ => 0) = none :=
  ⟨by decide, by decide, by decide, by decide, by decide,
    jacobian_eq_none (plainElastic 2) (hugePoint 2 32769) (fun _ => 0) (fun _ => 0)
      32768 (by decide) 1 32768 (by decide) (by decide)⟩

/-- The amended C10 at the sample point (`nen = 2`, `d = 2`): eight slots,
sixteen scalars; the slot of `(1, 1, 0)` is `6`. -/
theorem jacobian_layout_witness :
    samplePoint.nen * 2 * samplePoint.nen ≤ 2 ^ 31 ∧
    slotIndex samplePoint.nen 2 1 1 0 = some 6 ∧
    ∃ stores : List (Nat × TV ℚ 2),
      checkedStores (sampleElastic.jacobianStores samplePoint sampleField) = some stores ∧
      stores.map Prod.fst = [0, 1, 2, 3, 4, 5, 6, 7] ∧
      (scalarOffsets stores).length = 16 :=
  have h := jacobian_layout sampleElastic samplePoint sampleField (fun _ => 7) (by decide)
  ⟨by decide, h.2.2.2.1 1 1 0 (by decide) (by decide) (by decide),
    h.2.2.2.2.elim fun stores hs => ⟨stores, hs.1, hs.2.2.1, hs.2.2.2.2.1⟩⟩

end samples

end Hollow
